import Mathlib

/-!
# Verification of the Ogier EPUB reader front-end

A shallow embedding, in Lean 4, of the pure logic of the Ogier EPUB reading
application's front-end (TypeScript), together with proofs of the specified
properties.

JavaScript numbers are modelled as rationals (`ℚ`): every routine verified
here uses only comparison, addition, subtraction, multiplication and division
by nonzero constants, which float arithmetic performs exactly on the small
values involved; the properties proved are order-theoretic or algebraic and
are stated over `ℚ`.

DOM state that the routines read or write (dialog `open` flags, dataset
attributes of nav buttons, interval handles) is made explicit as record
fields, and each method becomes a state-passing function.
-/

namespace Ogier

/-! ## Embedding of src/base.ts

`clamp`, the fractional-position formulas, and `TaskRepeater`.
-/

/-- Function `clamp` from `src/base.ts`:
returns `min` when `value < min`, `max` when `value > max`, else `value`. -/
def clamp (value lo hi : ℚ) : ℚ :=
  if value < lo then lo
  else if value > hi then hi
  else value

/-- The two fields of a `DOMRect` that the position formulas read. -/
structure DOMRect where
  top : ℚ
  height : ℚ

/-- Function `getCurrentPositionPx` from `src/base.ts`: `box.height / 5 - content.top`. -/
def getCurrentPositionPx (box content : DOMRect) : ℚ :=
  box.height / 5 - content.top

/-- Function `getCurrentPosition` from `src/base.ts`:
`getCurrentPositionPx(box, content) / content.height`. -/
def getCurrentPosition (box content : DOMRect) : ℚ :=
  getCurrentPositionPx box content / content.height

/-- Function `getCurrentPositionInverse` from `src/base.ts`:
`percentage * content.height - box.height / 5`. -/
def getCurrentPositionInverse (box content : DOMRect) (percentage : ℚ) : ℚ :=
  percentage * content.height - box.height / 5

/-! ## Embedding of src/styler.ts

The numeric pipeline of `Styler.#setFilewiseStyleCss` (current version) and
`Styler.setCustomStylesheet` (older version): each per-book style knob is
clamped to a fixed range before being formatted into the generated CSS.
Only the numeric values are modelled; the CSS text wrapped around them
carries no further information.
-/

/-- The per-book style record (`FilewiseStyles` in `src/base.ts`): one number
per `FilewiseStylesKey`. -/
structure FilewiseStyles where
  baseFontSize : ℚ
  lineHeightScale : ℚ
  inlineMargin : ℚ

/-- Values that `Styler.#setFilewiseStyleCss` (`src/styler.ts`,
current version) formats into the generated CSS:
`clamp(styles[BaseFontSize], 8, 72)`, `clamp(styles[LineHeightScale], 2, 60) / 10`,
and `clamp(styles[InlineMargin], 0, 45)` (used as a percentage). -/
def setFilewiseStyleCssValues (styles : FilewiseStyles) : ℚ × ℚ × ℚ :=
  (clamp styles.baseFontSize 8 72,
   clamp styles.lineHeightScale 2 60 / 10,
   clamp styles.inlineMargin 0 45)

/-- The inline-margin value of the older `Styler.setCustomStylesheet`
(`src/styler.ts`, older version): `clamp(styles[InlineMargin], 0, 500)`. -/
def setCustomStylesheetMargin (styles : FilewiseStyles) : ℚ :=
  clamp styles.inlineMargin 0 500

/-! ## Embedding of src/modal/nav.ts (third section): BaseModal and ModalCoordinator

A modal's DOM-owned open flag and its `locked` flag become a two-field
record; the registry `ModalCoordinator.modals` becomes a list (JS `Record`
iteration follows insertion order), with a modal identified by its index.
-/

/-- The state of one modal: the `<dialog>`'s open flag plus the `locked`
flag of `BaseModal`. -/
structure BaseModal where
  isOpen : Bool
  locked : Bool
deriving DecidableEq, Repr

/-- Method `BaseModal.close` from `src/modal/nav.ts`: a successful no-op when the
dialog is not open; a refusal (no state change) when open and locked;
otherwise closes the dialog. Returns (return value, modal state after). -/
def BaseModal.close (m : BaseModal) : Bool × BaseModal :=
  if !m.isOpen then (true, m)
  else if m.locked then (false, m)
  else (true, { m with isOpen := false })

/-- Loop step of `for (const id in ModalCoordinator.modals)` in
`ModalCoordinator.show`, starting at list position `i`: every modal other
than the one at `target` is asked to `close()`; on the first refusal the
loop returns `false` immediately, leaving the remaining modals untouched
(modals already closed stay closed). -/
def closeOthersFrom (target : Nat) : Nat → List BaseModal → Bool × List BaseModal
  | _, [] => (true, [])
  | i, m :: rest =>
    if i = target then
      let r := closeOthersFrom target (i + 1) rest
      (r.1, m :: r.2)
    else
      let c := BaseModal.close m
      if c.1 then
        let r := closeOthersFrom target (i + 1) rest
        (r.1, c.2 :: r.2)
      else
        (false, c.2 :: rest)

/-- The observable outcome of `ModalCoordinator.show`: its boolean return
value, the registry state after the call, and how many times the native
`dialog.showModal()` was invoked. -/
structure ShowResult where
  returned : Bool
  modals : List BaseModal
  showModalCalls : Nat
deriving DecidableEq, Repr

namespace ModalCoordinator

/-- Method `ModalCoordinator.show` from `src/modal/nav.ts`: refuse if the target
modal is already open or locked; otherwise close every other registered
modal in registry order, aborting on the first refusal; call `showModal()`
on the target only when every other modal closed successfully.
`target` is the registry index of the modal passed in (an unregistered
index is never used by the source; it is mapped to a refusal). -/
def «show» (modals : List BaseModal) (target : Nat) : ShowResult :=
  match modals[target]? with
  | none => ⟨false, modals, 0⟩
  | some modal =>
    if modal.isOpen then ⟨false, modals, 0⟩
    else if modal.locked then ⟨false, modals, 0⟩
    else
      let r := closeOthersFrom target 0 modals
      if r.1 then
        ⟨true, r.2.set target { modal with isOpen := true }, 1⟩
      else
        ⟨false, r.2, 0⟩

end ModalCoordinator

/-- Number of open modals in a registry. -/
def countOpen (modals : List BaseModal) : Nat :=
  (modals.filter fun m => m.isOpen).length

/-- The registry invariant: at most one modal is open. -/
def atMostOneOpen (modals : List BaseModal) : Prop :=
  countOpen modals ≤ 1

/-- The operations the program performs on the modal registry:
`ModalCoordinator.show`, `BaseModal.close` (also triggered by a click on
the dialog backdrop), and setting the `locked` flag (done by modal
constructors and `init` methods; it touches no open flag). -/
inductive ModalEvent where
  | showEvt (target : Nat)
  | closeEvt (target : Nat)
  | setLockedEvt (target : Nat) (value : Bool)
deriving DecidableEq, Repr

/-- Apply one registry operation. Events addressing an unregistered index
do nothing (the source never produces them). -/
def applyModalEvent (modals : List BaseModal) : ModalEvent → List BaseModal
  | .showEvt target => (ModalCoordinator.«show» modals target).modals
  | .closeEvt target =>
    match modals[target]? with
    | none => modals
    | some m => modals.set target (BaseModal.close m).2
  | .setLockedEvt target value =>
    match modals[target]? with
    | none => modals
    | some m => modals.set target { m with locked := value }

/-- Run a sequence of registry operations. -/
def runModalEvents (modals : List BaseModal) (events : List ModalEvent) : List BaseModal :=
  events.foldl applyModalEvent modals

/-- The initial registry: every registered modal starts closed, with any
combination of `locked` flags (constructors choose `locked` freely). -/
def initRegistry (locks : List Bool) : List BaseModal :=
  locks.map fun locked => ⟨false, locked⟩

/-! ## Embedding of mostRecentNavPoint from src/modals.ts and src/modal/nav.ts

A nav button's stored data: `dataset.path` and `dataset.locationId`
(either may be absent — `<span>`-labelled buttons get neither). The DOM
query `button[data-path="currentPath"]` keeps exactly the buttons whose
`data-path` attribute is present and equal, in document order; the loop
then scans them in that order.
-/

/-- The dataset of one TOC nav button (`button` element produced by
`remakeNavPoints` / `createNavPointNcx`). `none` models an absent
dataset attribute. -/
structure NavButton where
  path : Option String
  locationId : Option String
deriving DecidableEq, Repr

/-- The resolved offset of a button inside `mostRecentNavPoint`:
`btn.dataset.locationId ? getAnchoredOffset(btn.dataset.locationId) : 0`
(an absent or empty id is falsy). -/
def resolvedOffset (getAnchoredOffset : String → ℚ) (btn : NavButton) : ℚ :=
  match btn.locationId with
  | none => 0
  | some id => if id = "" then 0 else getAnchoredOffset id

/-- The candidate buttons: result of the
`button[data-path="currentPath"]` query, in document order. -/
def matchingButtons (buttons : List NavButton) (currentPath : String) : List NavButton :=
  buttons.filter fun btn => btn.path = some currentPath

/-- Loop `for (const btn of buttons)` of `mostRecentNavPoint`, carrying
the `mostRecent` accumulator: a qualifying button (resolved offset ≤ the
current offset) replaces the accumulator when its resolved offset is `>=`
the held one (last-wins on ties). -/
def mostRecentScan (offset : ℚ) (getAnchoredOffset : String → ℚ) :
    List NavButton → Option (ℚ × NavButton) → Option (ℚ × NavButton)
  | [], mostRecent => mostRecent
  | btn :: rest, mostRecent =>
    let anchoredOffset := resolvedOffset getAnchoredOffset btn
    mostRecentScan offset getAnchoredOffset rest
      (if offset ≥ anchoredOffset then
        match mostRecent with
        | none => some (anchoredOffset, btn)
        | some pr => if anchoredOffset ≥ pr.1 then some (anchoredOffset, btn) else some pr
      else mostRecent)

/-- Function `mostRecentNavPoint` from `src/modals.ts` (identical in
`src/modal/nav.ts`): `null` when no button carries the current path;
otherwise the result of the scan (still possibly `null`). -/
def mostRecentNavPoint (buttons : List NavButton) (currentPath : String)
    (offset : ℚ) (getAnchoredOffset : String → ℚ) : Option NavButton :=
  let bs := matchingButtons buttons currentPath
  if bs.isEmpty then none
  else (mostRecentScan offset getAnchoredOffset bs none).map fun pr => pr.2

/-! ## Embedding of the customization editor (src/tools part and src/filewise.ts)

`commitCustomStylesFromSaved` (and the identical
`FilewiseStylesEditor.commitFromFile`): merge the saved record into the
input controls, then commit the record re-derived from the controls.
-/

/-- Type of the saved record (TS `Partial` of `FilewiseStyles`); each key may be absent. -/
structure SavedFilewiseStyles where
  baseFontSize : Option ℚ
  lineHeightScale : Option ℚ
  inlineMargin : Option ℚ
deriving DecidableEq, Repr

/-- Merge of one key in `commitCustomStylesFromSaved`:
`const value = saved[key]; if (value) input.value = value.toString()`.
The control keeps its current value when the key is absent — and also when
the saved value is `0`, because `if (value)` tests JS truthiness. -/
def mergeSavedKey (saved : Option ℚ) (current : ℚ) : ℚ :=
  match saved with
  | none => current
  | some value => if value = 0 then current else value

/-- Function `commitCustomStylesFromSaved` from the customization editor
(`FilewiseStylesEditor.commitFromFile` in `src/filewise.ts`): merge the
saved record into the controls, then call `commit` on the record derived
from the current control values (`stagedCustomStyles()`). Returns
(control values after the merge, record passed to `commit`). -/
def commitCustomStylesFromSaved (saved : SavedFilewiseStyles)
    (inputs : FilewiseStyles) : FilewiseStyles × FilewiseStyles :=
  let inputs' : FilewiseStyles :=
    ⟨mergeSavedKey saved.baseFontSize inputs.baseFontSize,
     mergeSavedKey saved.lineHeightScale inputs.lineHeightScale,
     mergeSavedKey saved.inlineMargin inputs.inlineMargin⟩
  (inputs', inputs')

/-! ## Embedding of TaskRepeater from src/base.ts

`window.setInterval` / `window.clearInterval` are modelled by an explicit
scheduler state: a counter of handles handed out so far and the list of
currently live interval handles (real handles are positive integers, fresh
on each call; `clearInterval(h)` removes `h`).
-/

/-- The host timer state: `nextId` is the next fresh interval handle,
`live` the handles of currently running intervals (this repeater's and
anyone else's). -/
structure SchedulerState where
  nextId : Nat
  live : List Nat
deriving DecidableEq, Repr

/-- Operation `window.setInterval`: returns a fresh handle and registers it. -/
def setIntervalOp (s : SchedulerState) : Nat × SchedulerState :=
  (s.nextId, ⟨s.nextId + 1, s.live ++ [s.nextId]⟩)

/-- Operation `window.clearInterval(h)`: deregisters `h`. -/
def clearIntervalOp (s : SchedulerState) (h : Nat) : SchedulerState :=
  ⟨s.nextId, s.live.filter fun x => x ≠ h⟩

/-- Class `TaskRepeater` from `src/base.ts`: a fixed interval and the handle of
the currently scheduled interval, if any. -/
structure TaskRepeater where
  intervalMs : Nat
  handle : Option Nat
deriving DecidableEq, Repr

/-- The side effects of one `restart` call, in program order. -/
inductive TimerEvent where
  | cleared (handle : Nat)
  | calledF
  | scheduled (handle : Nat) (intervalMs : Nat)
deriving DecidableEq, Repr

/-- Method `TaskRepeater.restart(f)` from `src/base.ts`: clear the previous
interval if one exists, invoke `f` once immediately, then schedule `f` at
the repeater's fixed interval and remember the new handle. Returns the
repeater and scheduler states after the call and the trace of effects. -/
def TaskRepeater.restart (tr : TaskRepeater) (sched : SchedulerState) :
    TaskRepeater × SchedulerState × List TimerEvent :=
  let cleared : SchedulerState × List TimerEvent :=
    match tr.handle with
    | some h => (clearIntervalOp sched h, [TimerEvent.cleared h])
    | none => (sched, [])
  let issued := setIntervalOp cleared.1
  ({ tr with handle := some issued.1 },
   issued.2,
   cleared.2 ++ [TimerEvent.calledF, TimerEvent.scheduled issued.1 tr.intervalMs])

/-- Run `count` consecutive `restart` calls on one repeater, collecting the
handles the scheduler issued to it (`issued`). -/
def runRestarts : Nat → TaskRepeater → SchedulerState → List Nat →
    TaskRepeater × SchedulerState × List Nat
  | 0, tr, sched, issued => (tr, sched, issued)
  | count + 1, tr, sched, issued =>
    let r := TaskRepeater.restart tr sched
    runRestarts count r.1 r.2.1 (issued ++ [sched.nextId])

/-- The live interval handles that belong to the repeater: the handles it
was ever issued that are still registered. -/
def liveIssued (sched : SchedulerState) (issued : List Nat) : List Nat :=
  sched.live.filter fun h => h ∈ issued

/-- Scheduler well-formedness: every live handle was handed out before
`nextId`. Holds for the real host scheduler at all times. -/
def SchedulerState.WF (s : SchedulerState) : Prop :=
  ∀ h ∈ s.live, h < s.nextId

/-- Invariant tying a repeater to the scheduler and the list of handles it
has been issued: handles are bounded by `nextId`, the stored handle was
issued, an issued handle that is still live is the stored one, and the
stored handle is registered at most once. -/
def RInv (tr : TaskRepeater) (sched : SchedulerState) (issued : List Nat) : Prop :=
  (∀ h ∈ issued, h < sched.nextId) ∧
  (∀ h ∈ sched.live, h < sched.nextId) ∧
  (∀ h, tr.handle = some h → h ∈ issued) ∧
  (∀ h, h ∈ sched.live → h ∈ issued → tr.handle = some h) ∧
  (∀ h, tr.handle = some h → sched.live.count h ≤ 1)

/-! ## Embedding of moveInSpine from src/lib.ts

The spine is the list of spine-item pathnames; the reading position is the
index of the displayed item. `renderBookPage` is the only way the
displayed page changes; `moveInSpine` either alerts and returns without
rendering, or renders the adjacent spine item.
-/

/-- Message string `end_of_spine_message` imported from `strings.json` (a
resource outside the sources; its content is irrelevant to the claims). -/
def end_of_spine_message : String := "No more pages."

/-- What `moveInSpine` does: show a plain alert, or call
`renderBookPage(spine[index], percentage)`. -/
inductive MoveOutcome where
  | alerted (message : String)
  | rendered (path : String) (percentage : ℚ)
deriving DecidableEq, Repr

/-- Function `moveInSpine` from `src/lib.ts`: step the current spine index forward
or backward; when the adjacent index is below `0` or at or past the spine
length, alert `end_of_spine_message` and return without rendering;
otherwise render the adjacent item at fraction `0.0` (forward) or `1.0`
(backward). -/
def moveInSpine (spine : List String) (index : Nat) (forward : Bool) : MoveOutcome :=
  let index' : Int := (index : Int) + (if forward then 1 else -1)
  if h : index' < 0 ∨ (spine.length : Int) ≤ index' then
    MoveOutcome.alerted end_of_spine_message
  else
    MoveOutcome.rendered (spine.get ⟨index'.toNat, by omega⟩)
      (if forward then 0 else 1)

/-- The reader state `moveInSpine` can affect: the displayed pathname and
the reading-position index (both set only by `renderBookPage`). -/
structure ReaderPageState where
  displayedPath : String
  positionIndex : Nat
deriving DecidableEq, Repr

/-- Function `moveInSpine` as a step on the reader state: the alert path returns
early, so the state is untouched; the render path displays the adjacent
item and moves the reading position to it. -/
def moveInSpineStep (spine : List String) (st : ReaderPageState) (forward : Bool) :
    ReaderPageState × MoveOutcome :=
  match moveInSpine spine st.positionIndex forward with
  | MoveOutcome.alerted message => (st, MoveOutcome.alerted message)
  | MoveOutcome.rendered path percentage =>
    (⟨path, (((st.positionIndex : Int) + (if forward then 1 else -1))).toNat⟩,
     MoveOutcome.rendered path percentage)

/-! ## Embedding of Styler custom-property-for-font from src/unnamed/part_009

`--og-font-` followed by the lowercase-hex encoding of the UTF-8 bytes of
the lowercased font name. `TextEncoder.encode` is the UTF-8 encoding of
the Unicode code points; `b.toString(16).padStart(2, "0")` is the two-digit
lowercase-hex rendering of a byte. `String.prototype.toLowerCase` is
modelled per code point (it agrees with `Char.toLower` on ASCII; neither
changes the CJK characters of the spec's examples).
-/

/-- Lowercasing `name.toLowerCase()`: per-code-point lowercasing of the font name. -/
def jsToLowerCase (s : String) : String := String.mk (s.data.map Char.toLower)

/-- UTF-8 encoding of one code point (what `TextEncoder` emits per
character), as a list of byte values. -/
def utf8EncodeChar (c : Char) : List Nat :=
  if c.toNat < 128 then [c.toNat]
  else if c.toNat < 2048 then [192 + c.toNat / 64, 128 + c.toNat % 64]
  else if c.toNat < 65536 then
    [224 + c.toNat / 4096, 128 + c.toNat / 64 % 64, 128 + c.toNat % 64]
  else
    [240 + c.toNat / 262144, 128 + c.toNat / 4096 % 64, 128 + c.toNat / 64 % 64,
     128 + c.toNat % 64]

/-- One lowercase hex digit (`Number.prototype.toString(16)` digit set). -/
def hexDigitChar (n : Nat) : Char :=
  if n < 10 then Char.ofNat (48 + n) else Char.ofNat (87 + n)

/-- Rendering `b.toString(16).padStart(2, "0")` for a byte value `b`. -/
def hexByte (b : Nat) : List Char := [hexDigitChar (b / 16), hexDigitChar (b % 16)]

/-- Method `Styler.#customPropertyForFont` from `src/unnamed/part_009`:
`--og-font-` plus the hex encoding of the UTF-8 bytes of the lowercased
font name. -/
def customPropertyForFont (name : String) : String :=
  String.mk
    ("--og-font-".data ++ ((jsToLowerCase name).data.flatMap utf8EncodeChar).flatMap hexByte)

/-- A character allowed anywhere in a CSS `<ident>`: here the hyphen,
lowercase ASCII letters and digits suffice to cover every character the
encoding emits. -/
def isCssIdentChar (c : Char) : Bool :=
  c = '-' || ('a' ≤ c && c ≤ 'z') || ('0' ≤ c && c ≤ '9')

/-- Validity of a CSS custom property name: it starts with `--`, has at
least one further character, and every character is an ident character
(a sufficient condition per CSS Syntax §4.3.10 / CSS Variables §2). -/
def validCustomPropertyName (s : String) : Prop :=
  (∃ rest, s.data = '-' :: '-' :: rest ∧ rest ≠ []) ∧ ∀ c ∈ s.data, isCssIdentChar c


/-! ## Helper lemmas

General lemmas about the embedded operations, used by the claim theorems
below.
-/

theorem clamp_mem (value lo hi : ℚ) (h : lo ≤ hi) :
    lo ≤ clamp value lo hi ∧ clamp value lo hi ≤ hi := by
  unfold clamp
  split_ifs <;> constructor <;> linarith

theorem close_notOpen (m : BaseModal) (h : m.isOpen = false) : BaseModal.close m = (true, m) := by
  simp [BaseModal.close, h]

theorem close_openLocked (m : BaseModal) (h1 : m.isOpen = true) (h2 : m.locked = true) :
    BaseModal.close m = (false, m) := by
  simp [BaseModal.close, h1, h2]

theorem close_openUnlocked (m : BaseModal) (h1 : m.isOpen = true) (h2 : m.locked = false) :
    BaseModal.close m = (true, { m with isOpen := false }) := by
  simp [BaseModal.close, h1, h2]

theorem close_isOpen_imp (m : BaseModal) (h : (BaseModal.close m).2.isOpen = true) :
    m.isOpen = true := by
  rcases m with ⟨o, l⟩
  cases o <;> cases l <;> simp_all [BaseModal.close]

theorem close_locked_eq (m : BaseModal) : (BaseModal.close m).2.locked = m.locked := by
  rcases m with ⟨o, l⟩
  cases o <;> cases l <;> simp [BaseModal.close]

theorem countOpen_nil : countOpen [] = 0 := rfl

theorem countOpen_cons (m : BaseModal) (l : List BaseModal) :
    countOpen (m :: l) = (if m.isOpen then 1 else 0) + countOpen l := by
  by_cases h : m.isOpen <;> simp [countOpen, List.filter_cons, h, Nat.add_comm]

-- closeOthersFrom lemmas

theorem cof_length (target : Nat) :
    ∀ (l : List BaseModal) (i : Nat), ((closeOthersFrom target i l).2).length = l.length := by
  intro l
  induction l with
  | nil => intro i; simp [closeOthersFrom]
  | cons m rest ih =>
    intro i
    simp only [closeOthersFrom]
    by_cases ht : i = target
    · simp [ht, ih]
    · rcases ho : m.isOpen with _ | _
      · simp [ht, close_notOpen m ho, ih]
      · rcases hl : m.locked with _ | _
        · simp [ht, close_openUnlocked m ho hl, ih]
        · simp [ht, close_openLocked m ho hl]

theorem cof_elem (target : Nat) :
    ∀ (l : List BaseModal) (i j : Nat) (mj : BaseModal),
      ((closeOthersFrom target i l).2)[j]? = some mj →
      ∃ m, l[j]? = some m ∧ mj.locked = m.locked ∧
        (mj.isOpen = true → m.isOpen = true) ∧
        (m.isOpen = true → m.locked = true → mj = m) ∧
        (i + j = target → mj = m) := by
  intro l
  induction l with
  | nil => intro i j mj h; simp [closeOthersFrom] at h
  | cons m rest ih =>
    intro i j mj h
    simp only [closeOthersFrom] at h
    by_cases ht : i = target
    · rw [if_pos ht] at h
      cases j with
      | zero =>
        simp at h
        subst h
        exact ⟨m, by simp, rfl, id, fun _ _ => rfl, fun _ => rfl⟩
      | succ j' =>
        simp only [List.getElem?_cons_succ] at h ⊢
        obtain ⟨m', hm', h1, h2, h3, h4⟩ := ih (i + 1) j' mj h
        exact ⟨m', hm', h1, h2, h3, fun he => h4 (by omega)⟩
    · rw [if_neg ht] at h
      by_cases hc1 : (BaseModal.close m).1 = true
      · rw [if_pos hc1] at h
        cases j with
        | zero =>
          simp at h
          subst h
          refine ⟨m, by simp, close_locked_eq m, close_isOpen_imp m, ?_, ?_⟩
          · intro ho hl
            rw [close_openLocked m ho hl] at hc1
            simp at hc1
          · intro he; omega
        | succ j' =>
          simp only [List.getElem?_cons_succ] at h ⊢
          obtain ⟨m', hm', h1, h2, h3, h4⟩ := ih (i + 1) j' mj h
          exact ⟨m', hm', h1, h2, h3, fun he => h4 (by omega)⟩
      · rw [if_neg hc1] at h
        have hc1' : (BaseModal.close m).1 = false := Bool.eq_false_iff.mpr hc1
        have hcl : BaseModal.close m = (false, m) := by
          rcases ho : m.isOpen with _ | _
          · rw [close_notOpen m ho] at hc1'; simp at hc1'
          · rcases hl : m.locked with _ | _
            · rw [close_openUnlocked m ho hl] at hc1'; simp at hc1'
            · exact close_openLocked m ho hl
        rw [hcl] at h
        cases j with
        | zero =>
          simp at h
          subst h
          exact ⟨m, by simp, rfl, id, fun _ _ => rfl, fun _ => rfl⟩
        | succ j' =>
          simp only [List.getElem?_cons_succ] at h ⊢
          exact ⟨mj, h, rfl, id, fun _ _ => rfl, fun _ => rfl⟩

theorem close_failed_eq (m : BaseModal) (hc1 : ¬(BaseModal.close m).1 = true) :
    m.isOpen = true ∧ m.locked = true ∧ BaseModal.close m = (false, m) := by
  have hc1' : (BaseModal.close m).1 = false := Bool.eq_false_iff.mpr hc1
  rcases ho : m.isOpen with _ | _
  · rw [close_notOpen m ho] at hc1'; simp at hc1'
  · rcases hl : m.locked with _ | _
    · rw [close_openUnlocked m ho hl] at hc1'; simp at hc1'
    · exact ⟨rfl, rfl, close_openLocked m ho hl⟩

theorem cof_false_elem (target : Nat) :
    ∀ (l : List BaseModal) (i : Nat), (closeOthersFrom target i l).1 = false →
      ∃ j m, l[j]? = some m ∧ m.isOpen = true ∧ m.locked = true ∧ i + j ≠ target := by
  intro l
  induction l with
  | nil => intro i h; simp [closeOthersFrom] at h
  | cons m rest ih =>
    intro i h
    simp only [closeOthersFrom] at h
    by_cases ht : i = target
    · rw [if_pos ht] at h
      simp only at h
      obtain ⟨j, m', hm', h1, h2, h3⟩ := ih (i + 1) h
      exact ⟨j + 1, m', by simpa using hm', h1, h2, by omega⟩
    · rw [if_neg ht] at h
      by_cases hc1 : (BaseModal.close m).1 = true
      · rw [if_pos hc1] at h
        simp only at h
        obtain ⟨j, m', hm', h1, h2, h3⟩ := ih (i + 1) h
        exact ⟨j + 1, m', by simpa using hm', h1, h2, by omega⟩
      · obtain ⟨ho, hl, _⟩ := close_failed_eq m hc1
        exact ⟨0, m, by simp, ho, hl, by omega⟩

theorem cof_true_of (target : Nat) :
    ∀ (l : List BaseModal) (i : Nat),
      (∀ j m, l[j]? = some m → i + j ≠ target → ¬(m.isOpen = true ∧ m.locked = true)) →
      (closeOthersFrom target i l).1 = true := by
  intro l
  induction l with
  | nil => intro i _; simp [closeOthersFrom]
  | cons m rest ih =>
    intro i hno
    simp only [closeOthersFrom]
    by_cases ht : i = target
    · rw [if_pos ht]
      simp only
      exact ih (i + 1) fun j m' hm' hne =>
        hno (j + 1) m' (by simpa using hm') (by omega)
    · rw [if_neg ht]
      by_cases hc1 : (BaseModal.close m).1 = true
      · rw [if_pos hc1]
        simp only
        exact ih (i + 1) fun j m' hm' hne =>
          hno (j + 1) m' (by simpa using hm') (by omega)
      · obtain ⟨ho, hl, _⟩ := close_failed_eq m hc1
        exact absurd ⟨ho, hl⟩ (hno 0 m (by simp) (by omega))

theorem cof_true_closed (target : Nat) :
    ∀ (l : List BaseModal) (i : Nat), (closeOthersFrom target i l).1 = true →
      ∀ j mj, ((closeOthersFrom target i l).2)[j]? = some mj → i + j ≠ target →
        mj.isOpen = false := by
  intro l
  induction l with
  | nil => intro i _ j mj h; simp [closeOthersFrom] at h
  | cons m rest ih =>
    intro i hok j mj h
    simp only [closeOthersFrom] at hok h
    by_cases ht : i = target
    · rw [if_pos ht] at hok h
      simp only at hok h
      cases j with
      | zero => intro hne; omega
      | succ j' =>
        intro hne
        simp only [List.getElem?_cons_succ] at h
        exact ih (i + 1) hok j' mj h (by omega)
    · rw [if_neg ht] at hok h
      by_cases hc1 : (BaseModal.close m).1 = true
      · rw [if_pos hc1] at hok h
        simp only at hok h
        cases j with
        | zero =>
          intro _
          simp at h
          subst h
          rcases ho : m.isOpen with _ | _
          · rw [close_notOpen m ho]; exact ho
          · rcases hl : m.locked with _ | _
            · rw [close_openUnlocked m ho hl]
            · rw [close_openLocked m ho hl] at hc1; simp at hc1
        | succ j' =>
          intro hne
          simp only [List.getElem?_cons_succ] at h
          exact ih (i + 1) hok j' mj h (by omega)
      · rw [if_neg hc1] at hok
        simp at hok

theorem cof_countOpen (target : Nat) :
    ∀ (l : List BaseModal) (i : Nat),
      countOpen (closeOthersFrom target i l).2 ≤ countOpen l := by
  intro l
  induction l with
  | nil => intro i; simp [closeOthersFrom]
  | cons m rest ih =>
    intro i
    simp only [closeOthersFrom]
    by_cases ht : i = target
    · rw [if_pos ht]
      simp only
      rw [countOpen_cons, countOpen_cons]
      exact Nat.add_le_add_left (ih (i + 1)) _
    · rw [if_neg ht]
      by_cases hc1 : (BaseModal.close m).1 = true
      · rw [if_pos hc1]
        simp only
        rw [countOpen_cons, countOpen_cons]
        refine Nat.add_le_add ?_ (ih (i + 1))
        by_cases ho : (BaseModal.close m).2.isOpen = true
        · rw [if_pos ho, if_pos (close_isOpen_imp m ho)]
        · rw [if_neg ho]
          exact Nat.zero_le _
      · obtain ⟨_, _, hcl⟩ := close_failed_eq m hc1
        rw [if_neg hc1, hcl]

theorem cof_false_unchanged (target : Nat) :
    ∀ (l : List BaseModal) (i : Nat), countOpen l ≤ 1 →
      (closeOthersFrom target i l).1 = false → (closeOthersFrom target i l).2 = l := by
  intro l
  induction l with
  | nil => intro i _ h; simp [closeOthersFrom] at h
  | cons m rest ih =>
    intro i hinv h
    simp only [closeOthersFrom] at h ⊢
    by_cases ht : i = target
    · rw [if_pos ht] at h ⊢
      simp only at h ⊢
      rw [countOpen_cons] at hinv
      rw [ih (i + 1) (by omega) h]
    · rw [if_neg ht] at h ⊢
      by_cases hc1 : (BaseModal.close m).1 = true
      · rw [if_pos hc1] at h ⊢
        simp only at h ⊢
        rw [countOpen_cons] at hinv
        -- the recursion failed, so some later modal is open-and-locked;
        -- with at most one open modal, the head must then be closed
        obtain ⟨j, m', hm', hop, _, _⟩ := cof_false_elem target rest (i + 1) h
        have hmem : m' ∈ rest := List.getElem?_mem hm'
        have hrest1 : 1 ≤ countOpen rest := by
          have : m' ∈ rest.filter fun x => x.isOpen := by
            rw [List.mem_filter]
            exact ⟨hmem, hop⟩
          have := List.length_pos_of_mem this
          simpa [countOpen] using this
        have hmclosed : m.isOpen = false := by
          rcases ho : m.isOpen with _ | _
          · rfl
          · rw [if_pos ho] at hinv; omega
        rw [close_notOpen m hmclosed]
        rw [if_neg (by simp [hmclosed]) ] at hinv
        rw [ih (i + 1) (by omega) h]
      · rw [if_neg hc1] at h ⊢
        obtain ⟨_, _, hcl⟩ := close_failed_eq m hc1
        rw [hcl]

theorem cof_false_of (target : Nat) (l : List BaseModal) (i j : Nat) (m : BaseModal)
    (hj : l[j]? = some m) (ho : m.isOpen = true) (hl : m.locked = true)
    (hne : i + j ≠ target) : (closeOthersFrom target i l).1 = false := by
  cases hok : (closeOthersFrom target i l).1 with
  | false => rfl
  | true =>
    exfalso
    have hjlt : j < l.length := by
      by_contra hge
      rw [List.getElem?_eq_none (by omega)] at hj
      cases hj
    have hjlt' : j < ((closeOthersFrom target i l).2).length := by
      rw [cof_length]
      exact hjlt
    have hres : ((closeOthersFrom target i l).2)[j]? =
        some ((closeOthersFrom target i l).2)[j] := List.getElem?_eq_getElem hjlt'
    obtain ⟨m', hm', _, _, hkeep, _⟩ := cof_elem target l i j _ hres
    rw [hj] at hm'
    cases hm'
    have heq := hkeep ho hl
    have hclosed := cof_true_closed target l i hok j _ hres hne
    rw [heq, ho] at hclosed
    cases hclosed

theorem countOpen_eq_zero_of (l : List BaseModal) :
    (∀ (j : Nat) (mj : BaseModal), l[j]? = some mj → mj.isOpen = false) → countOpen l = 0 := by
  induction l with
  | nil => intro _; rfl
  | cons m rest ih =>
    intro h
    rw [countOpen_cons]
    have hm : m.isOpen = false := h 0 m (by simp)
    rw [if_neg (by simp [hm])]
    simp only [Nat.zero_add]
    exact ih fun j mj hj => h (j + 1) mj (by simpa using hj)

theorem countOpen_le_one_of (l : List BaseModal) : ∀ (t : Nat),
    (∀ (j : Nat) (mj : BaseModal), l[j]? = some mj → mj.isOpen = true → j = t) →
    countOpen l ≤ 1 := by
  induction l with
  | nil => intro t _; simp [countOpen_nil]
  | cons m rest ih =>
    intro t h
    rw [countOpen_cons]
    by_cases ho : m.isOpen = true
    · rw [if_pos ho]
      have hz : countOpen rest = 0 := by
        refine countOpen_eq_zero_of rest fun j mj hj => ?_
        by_cases hoj : mj.isOpen = true
        · have h1 := h (j + 1) mj (by simpa using hj) hoj
          have h2 := h 0 m (by simp) ho
          omega
        · exact Bool.eq_false_iff.mpr hoj
      omega
    · rw [if_neg ho]
      simp only [Nat.zero_add]
      cases t with
      | zero =>
        have hz : countOpen rest = 0 := by
          refine countOpen_eq_zero_of rest fun j mj hj => ?_
          by_cases hoj : mj.isOpen = true
          · exact absurd (h (j + 1) mj (by simpa using hj) hoj) (by omega)
          · exact Bool.eq_false_iff.mpr hoj
        omega
      | succ t' =>
        exact ih t' fun j mj hj hoj => by
          have := h (j + 1) mj (by simpa using hj) hoj
          omega

theorem countOpen_set_le (l : List BaseModal) : ∀ (i : Nat) (m m' : BaseModal),
    l[i]? = some m → (m'.isOpen = true → m.isOpen = true) →
    countOpen (l.set i m') ≤ countOpen l := by
  induction l with
  | nil => intro i m m' hm _; simp at hm
  | cons hd tl ih =>
    intro i m m' hm himp
    cases i with
    | zero =>
      simp at hm
      subst hm
      rw [List.set_cons_zero, countOpen_cons, countOpen_cons]
      refine Nat.add_le_add ?_ (Nat.le_refl _)
      by_cases ho : m'.isOpen = true
      · rw [if_pos ho, if_pos (himp ho)]
      · rw [if_neg ho]
        exact Nat.zero_le _
    | succ i' =>
      simp only [List.getElem?_cons_succ] at hm
      rw [List.set_cons_succ, countOpen_cons, countOpen_cons]
      exact Nat.add_le_add_left (ih i' m m' hm himp) _

theorem show_target_missing (modals : List BaseModal) (target : Nat)
    (h : modals[target]? = none) : ModalCoordinator.«show» modals target = ⟨false, modals, 0⟩ := by
  unfold ModalCoordinator.«show»
  rw [h]

theorem show_unfold_eq (modals : List BaseModal) (target : Nat) (modal : BaseModal)
    (hm : modals[target]? = some modal) :
    ModalCoordinator.«show» modals target =
      if modal.isOpen then (⟨false, modals, 0⟩ : ShowResult)
      else if modal.locked then ⟨false, modals, 0⟩
      else if (closeOthersFrom target 0 modals).1 then
        ⟨true, (closeOthersFrom target 0 modals).2.set target { modal with isOpen := true }, 1⟩
      else ⟨false, (closeOthersFrom target 0 modals).2, 0⟩ := by
  unfold ModalCoordinator.«show»
  rw [hm]

theorem getElem?_lt {l : List BaseModal} {i : Nat} {m : BaseModal}
    (h : l[i]? = some m) : i < l.length := by
  by_contra hge
  rw [List.getElem?_eq_none (by omega)] at h
  cases h

theorem show_success_closes (modals : List BaseModal) (target : Nat)
    (h : (ModalCoordinator.«show» modals target).returned = true) :
    ∀ (j : Nat) (mj : BaseModal), j ≠ target →
      (ModalCoordinator.«show» modals target).modals[j]? = some mj → mj.isOpen = false := by
  intro j mj hne hj
  cases hm : modals[target]? with
  | none =>
    rw [show_target_missing modals target hm] at h
    cases h
  | some modal =>
    rw [show_unfold_eq modals target modal hm] at h hj
    by_cases ho : modal.isOpen = true
    · rw [if_pos ho] at h
      cases h
    · rw [if_neg ho] at h hj
      by_cases hl : modal.locked = true
      · rw [if_pos hl] at h
        cases h
      · rw [if_neg hl] at h hj
        cases hok : (closeOthersFrom target 0 modals).1 with
        | false =>
          rw [hok] at h
          cases h
        | true =>
          rw [hok] at hj
          simp only [if_true] at hj
          rw [List.getElem?_set_ne (by omega)] at hj
          exact cof_true_closed target modals 0 hok j mj hj (by omega)

theorem show_preserves_openLocked (modals : List BaseModal) (target i : Nat) (m : BaseModal)
    (hi : modals[i]? = some m) (ho : m.isOpen = true) (hl : m.locked = true) :
    (ModalCoordinator.«show» modals target).modals[i]? = some m := by
  cases hm : modals[target]? with
  | none =>
    rw [show_target_missing modals target hm]
    exact hi
  | some modal =>
    rw [show_unfold_eq modals target modal hm]
    by_cases hop : modal.isOpen = true
    · rw [if_pos hop]
      exact hi
    · rw [if_neg hop]
      by_cases hlk : modal.locked = true
      · rw [if_pos hlk]
        exact hi
      · rw [if_neg hlk]
        have hti : i ≠ target := by
          intro he
          subst he
          rw [hi] at hm
          cases hm
          exact hop ho
        have hfail : (closeOthersFrom target 0 modals).1 = false :=
          cof_false_of target modals 0 i m hi ho hl (by omega)
        rw [hfail]
        simp only [Bool.false_eq_true, if_false]
        have hilt : i < ((closeOthersFrom target 0 modals).2).length := by
          rw [cof_length]
          exact getElem?_lt hi
        have hres : ((closeOthersFrom target 0 modals).2)[i]? =
            some ((closeOthersFrom target 0 modals).2)[i] := List.getElem?_eq_getElem hilt
        obtain ⟨m', hm', _, _, hkeep, _⟩ := cof_elem target modals 0 i _ hres
        rw [hi] at hm'
        cases hm'
        rw [hres, hkeep ho hl]

theorem show_countOpen_le_one (modals : List BaseModal) (target : Nat)
    (h : countOpen modals ≤ 1) : countOpen (ModalCoordinator.«show» modals target).modals ≤ 1 := by
  cases hm : modals[target]? with
  | none =>
    rw [show_target_missing modals target hm]
    exact h
  | some modal =>
    rw [show_unfold_eq modals target modal hm]
    by_cases hop : modal.isOpen = true
    · rw [if_pos hop]
      exact h
    · rw [if_neg hop]
      by_cases hlk : modal.locked = true
      · rw [if_pos hlk]
        exact h
      · rw [if_neg hlk]
        cases hok : (closeOthersFrom target 0 modals).1 with
        | false =>
          simp only [Bool.false_eq_true, if_false]
          exact le_trans (cof_countOpen target modals 0) h
        | true =>
          simp only [if_true]
          refine countOpen_le_one_of _ target fun j mj hj hoj => ?_
          by_contra hne
          rw [List.getElem?_set_ne (by omega)] at hj
          have := cof_true_closed target modals 0 hok j mj hj (by omega)
          rw [hoj] at this
          cases this

theorem applyEvent_countOpen (modals : List BaseModal) (ev : ModalEvent)
    (h : countOpen modals ≤ 1) : countOpen (applyModalEvent modals ev) ≤ 1 := by
  cases ev with
  | showEvt t => exact show_countOpen_le_one modals t h
  | closeEvt t =>
    have hred : applyModalEvent modals (ModalEvent.closeEvt t) =
        (match modals[t]? with
         | none => modals
         | some m => modals.set t (BaseModal.close m).2) := rfl
    rw [hred]
    cases hmt : modals[t]? with
    | none => exact h
    | some m =>
      exact le_trans (countOpen_set_le modals t m _ hmt (close_isOpen_imp m)) h
  | setLockedEvt t v =>
    have hred : applyModalEvent modals (ModalEvent.setLockedEvt t v) =
        (match modals[t]? with
         | none => modals
         | some m => modals.set t { m with locked := v }) := rfl
    rw [hred]
    cases hmt : modals[t]? with
    | none => exact h
    | some m =>
      exact le_trans (countOpen_set_le modals t m _ hmt fun x => x) h

theorem countOpen_init (locks : List Bool) : countOpen (initRegistry locks) = 0 := by
  induction locks with
  | nil => rfl
  | cons b rest ih =>
    have hstep : initRegistry (b :: rest) = ⟨false, b⟩ :: initRegistry rest := rfl
    rw [hstep, countOpen_cons, ih]
    simp

theorem runEvents_countOpen : ∀ (events : List ModalEvent) (modals : List BaseModal),
    countOpen modals ≤ 1 → countOpen (runModalEvents modals events) ≤ 1 := by
  intro events
  induction events with
  | nil => intro modals h; exact h
  | cons ev rest ih =>
    intro modals h
    have hstep : runModalEvents modals (ev :: rest) =
        runModalEvents (applyModalEvent modals ev) rest := rfl
    rw [hstep]
    exact ih _ (applyEvent_countOpen modals ev h)

theorem closeEvt_preserves_openLocked (modals : List BaseModal) (t i : Nat) (m : BaseModal)
    (hi : modals[i]? = some m) (ho : m.isOpen = true) (hl : m.locked = true) :
    (applyModalEvent modals (ModalEvent.closeEvt t))[i]? = some m := by
  have hred : applyModalEvent modals (ModalEvent.closeEvt t) =
      (match modals[t]? with
       | none => modals
       | some mt => modals.set t (BaseModal.close mt).2) := rfl
  rw [hred]
  cases hmt : modals[t]? with
  | none => exact hi
  | some mt =>
    by_cases hit : t = i
    · subst hit
      rw [hi] at hmt
      cases hmt
      show (modals.set t (BaseModal.close m).2)[t]? = some m
      rw [close_openLocked m ho hl]
      exact (List.getElem?_set_self (getElem?_lt hi)).trans rfl
    · show (modals.set t (BaseModal.close mt).2)[i]? = some m
      rw [List.getElem?_set_ne hit]
      exact hi

theorem restart_trace (tr : TaskRepeater) (sched : SchedulerState) :
    (tr.restart sched).2.2 =
      (match tr.handle with
       | some h => [TimerEvent.cleared h]
       | none => []) ++
      [TimerEvent.calledF, TimerEvent.scheduled sched.nextId tr.intervalMs] ∧
    (tr.restart sched).1.intervalMs = tr.intervalMs ∧
    (tr.restart sched).1.handle = some sched.nextId := by
  cases h : tr.handle <;> simp [TaskRepeater.restart, setIntervalOp, clearIntervalOp, h]

theorem restart_preserves (tr : TaskRepeater) (sched : SchedulerState) (issued : List Nat)
    (hinv : RInv tr sched issued) :
    RInv (tr.restart sched).1 (tr.restart sched).2.1 (issued ++ [sched.nextId]) := by
  obtain ⟨h1, h2, h3, h4, h5⟩ := hinv
  cases hh : tr.handle with
  | none =>
    refine ⟨?_, ?_, ?_, ?_, ?_⟩ <;>
      simp only [TaskRepeater.restart, setIntervalOp, clearIntervalOp, hh]
    · intro h hmem
      rcases List.mem_append.mp hmem with hm | hm
      · exact Nat.lt_succ_of_lt (h1 h hm)
      · simp at hm
        omega
    · intro h hmem
      rcases List.mem_append.mp hmem with hm | hm
      · exact Nat.lt_succ_of_lt (h2 h hm)
      · simp at hm
        omega
    · intro h he
      simp at he
      subst he
      simp
    · intro h hl hi
      rcases List.mem_append.mp hl with hm | hm
      · rcases List.mem_append.mp hi with hi' | hi'
        · exact absurd (h4 h hm hi') (by simp [hh])
        · simp at hi'
          subst hi'
          exact absurd (h2 _ hm) (by omega)
      · simp at hm
        subst hm
        rfl
    · intro h he
      simp at he
      subst he
      rw [List.count_append]
      have hz : sched.live.count sched.nextId = 0 := by
        rw [List.count_eq_zero]
        intro hmem
        exact absurd (h2 _ hmem) (by omega)
      simp [hz]
  | some h₀ =>
    refine ⟨?_, ?_, ?_, ?_, ?_⟩ <;>
      simp only [TaskRepeater.restart, setIntervalOp, clearIntervalOp, hh]
    · intro h hmem
      rcases List.mem_append.mp hmem with hm | hm
      · exact Nat.lt_succ_of_lt (h1 h hm)
      · simp at hm
        omega
    · intro h hmem
      rcases List.mem_append.mp hmem with hm | hm
      · have := List.mem_of_mem_filter hm
        exact Nat.lt_succ_of_lt (h2 h this)
      · simp at hm
        omega
    · intro h he
      simp at he
      subst he
      simp
    · intro h hl hi
      rcases List.mem_append.mp hl with hm | hm
      · have hmem := List.mem_of_mem_filter hm
        have hne : h ≠ h₀ := by
          have := List.of_mem_filter hm
          simpa using this
        rcases List.mem_append.mp hi with hi' | hi'
        · have := h4 h hmem hi'
          rw [hh] at this
          cases this
          exact absurd rfl hne
        · simp at hi'
          subst hi'
          exact absurd (h2 _ hmem) (by omega)
      · simp at hm
        subst hm
        rfl
    · intro h he
      simp at he
      subst he
      rw [List.count_append]
      have hz : ∀ (p : Nat → Bool), (sched.live.filter p).count sched.nextId = 0 := by
        intro p
        rw [List.count_eq_zero]
        intro hmem
        exact absurd (h2 _ (List.mem_of_mem_filter hmem)) (by omega)
      simp [hz]

theorem runRestarts_inv (count : Nat) :
    ∀ (tr : TaskRepeater) (sched : SchedulerState) (issued : List Nat),
      RInv tr sched issued →
      RInv (runRestarts count tr sched issued).1 (runRestarts count tr sched issued).2.1
        (runRestarts count tr sched issued).2.2 := by
  induction count with
  | zero => intro tr sched issued hinv; exact hinv
  | succ k ih =>
    intro tr sched issued hinv
    exact ih _ _ _ (restart_preserves tr sched issued hinv)

theorem length_le_one_of_all_eq (l : List Nat) (x : Nat)
    (hall : ∀ y ∈ l, y = x) (hc : l.count x ≤ 1) : l.length ≤ 1 := by
  have := List.count_eq_length.mpr fun b hb => (hall b hb).symm
  omega

theorem liveIssued_le_one (tr : TaskRepeater) (sched : SchedulerState) (issued : List Nat)
    (hinv : RInv tr sched issued) : (liveIssued sched issued).length ≤ 1 := by
  obtain ⟨_, _, _, h4, h5⟩ := hinv
  cases hl : liveIssued sched issued with
  | nil => simp
  | cons x rest =>
    have hx : x ∈ liveIssued sched issued := by rw [hl]; simp
    have hx' := List.mem_filter.mp hx
    have hhandle : tr.handle = some x := h4 x hx'.1 (by simpa using hx'.2)
    rw [← hl]
    refine length_le_one_of_all_eq _ x (fun y hy => ?_) ?_
    · have hy' := List.mem_filter.mp hy
      have := h4 y hy'.1 (by simpa using hy'.2)
      rw [hhandle] at this
      exact (Option.some.inj this).symm
    · calc (liveIssued sched issued).count x ≤ sched.live.count x :=
            (List.filter_sublist sched.live).count_le x
        _ ≤ 1 := h5 x hhandle


theorem mostRecentScan_eq_none (offset : ℚ) (f : String → ℚ) :
    ∀ (l : List NavButton) (acc : Option (ℚ × NavButton)),
      (mostRecentScan offset f l acc = none ↔
        acc = none ∧ ∀ b ∈ l, offset < resolvedOffset f b) := by
  intro l
  induction l with
  | nil => intro acc; simp [mostRecentScan]
  | cons b rest ih =>
    intro acc
    simp only [mostRecentScan]
    rw [ih]
    by_cases hq : offset ≥ resolvedOffset f b
    · have hnl : ¬ offset < resolvedOffset f b := not_lt.mpr hq
      cases acc with
      | none => simp [hq, hnl, List.forall_mem_cons]
      | some pr =>
        by_cases hge : pr.1 ≤ resolvedOffset f b <;>
          simp [hq, hge, hnl, List.forall_mem_cons]
    · have hl : offset < resolvedOffset f b := not_le.mp (by exact hq)
      simp [hq, hl, List.forall_mem_cons]

theorem mostRecentScan_eq_some (offset : ℚ) (f : String → ℚ) :
    ∀ (l : List NavButton) (acc : Option (ℚ × NavButton)),
      (∀ pr, acc = some pr → pr.1 = resolvedOffset f pr.2 ∧ pr.1 ≤ offset) →
      ∀ a bch, mostRecentScan offset f l acc = some (a, bch) →
        a = resolvedOffset f bch ∧ a ≤ offset ∧
        (∀ c ∈ l, resolvedOffset f c ≤ offset → resolvedOffset f c ≤ a) ∧
        (∀ pr, acc = some pr → pr.1 ≤ a) ∧
        ((∃ pre post, l = pre ++ bch :: post ∧
            ∀ c ∈ post, resolvedOffset f c ≤ offset → resolvedOffset f c < a)
          ∨ (acc = some (a, bch) ∧
              ∀ c ∈ l, resolvedOffset f c ≤ offset → resolvedOffset f c < a)) := by
  intro l
  induction l with
  | nil =>
    intro acc hacc a bch h
    simp only [mostRecentScan] at h
    obtain ⟨h1, h2⟩ := hacc _ h
    refine ⟨by simpa using h1, h2, by simp, ?_, Or.inr ⟨h, by simp⟩⟩
    intro pr hpr
    rw [h] at hpr
    cases hpr
    rfl
  | cons b rest ih =>
    intro acc hacc a bch h
    simp only [mostRecentScan] at h
    by_cases hq : offset ≥ resolvedOffset f b
    · rw [if_pos hq] at h
      cases hshape : acc with
      | none =>
        rw [hshape] at h
        have hnew : ∀ pr', (some (resolvedOffset f b, b) :
              Option (ℚ × NavButton)) = some pr' →
            pr'.1 = resolvedOffset f pr'.2 ∧ pr'.1 ≤ offset := by
          rintro pr' hpr'
          cases hpr'
          exact ⟨rfl, hq⟩
        obtain ⟨ha, hao, hall, haccb, hdisj⟩ := ih _ hnew a bch h
        have hba : resolvedOffset f b ≤ a := haccb _ rfl
        refine ⟨ha, hao, ?_, by simp [hshape], ?_⟩
        · intro c hc hco
          rcases List.mem_cons.mp hc with rfl | hc
          · exact hba
          · exact hall c hc hco
        · rcases hdisj with ⟨pre, post, hsplit, hpost⟩ | ⟨heq, hstrict⟩
          · exact Or.inl ⟨b :: pre, post, by simp [hsplit], hpost⟩
          · cases heq
            exact Or.inl ⟨[], rest, rfl, hstrict⟩
      | some pr =>
        rw [hshape] at h
        obtain ⟨hpr1, hpr2⟩ := hacc pr (by rw [hshape])
        have h' : mostRecentScan offset f rest
            (if resolvedOffset f b ≥ pr.1 then some (resolvedOffset f b, b) else some pr) =
            some (a, bch) := h
        by_cases hge : resolvedOffset f b ≥ pr.1
        · rw [if_pos hge] at h'
          have hnew : ∀ pr', (some (resolvedOffset f b, b) :
                Option (ℚ × NavButton)) = some pr' →
              pr'.1 = resolvedOffset f pr'.2 ∧ pr'.1 ≤ offset := by
            rintro pr' hpr'
            cases hpr'
            exact ⟨rfl, hq⟩
          obtain ⟨ha, hao, hall, haccb, hdisj⟩ := ih _ hnew a bch h'
          have hba : resolvedOffset f b ≤ a := haccb _ rfl
          refine ⟨ha, hao, ?_, ?_, ?_⟩
          · intro c hc hco
            rcases List.mem_cons.mp hc with rfl | hc
            · exact hba
            · exact hall c hc hco
          · rintro pr' hpr'
            cases hpr'
            exact le_trans hge hba
          · rcases hdisj with ⟨pre, post, hsplit, hpost⟩ | ⟨heq, hstrict⟩
            · exact Or.inl ⟨b :: pre, post, by simp [hsplit], hpost⟩
            · cases heq
              exact Or.inl ⟨[], rest, rfl, hstrict⟩
        · rw [if_neg hge] at h'
          have hlt : resolvedOffset f b < pr.1 := not_le.mp hge
          have hnew : ∀ pr', (some pr : Option (ℚ × NavButton)) = some pr' →
              pr'.1 = resolvedOffset f pr'.2 ∧ pr'.1 ≤ offset := by
            rintro pr' hpr'
            cases hpr'
            exact ⟨hpr1, hpr2⟩
          obtain ⟨ha, hao, hall, haccb, hdisj⟩ := ih _ hnew a bch h'
          have hpa : pr.1 ≤ a := haccb _ rfl
          refine ⟨ha, hao, ?_, ?_, ?_⟩
          · intro c hc hco
            rcases List.mem_cons.mp hc with rfl | hc
            · exact le_trans (le_of_lt hlt) hpa
            · exact hall c hc hco
          · rintro pr' hpr'
            cases hpr'
            exact hpa
          · rcases hdisj with ⟨pre, post, hsplit, hpost⟩ | ⟨heq, hstrict⟩
            · exact Or.inl ⟨b :: pre, post, by simp [hsplit], hpost⟩
            · refine Or.inr ⟨heq, ?_⟩
              intro c hc hco
              rcases List.mem_cons.mp hc with rfl | hc
              · have hpe : pr.1 = a := by rw [Option.some.inj heq]
                rw [← hpe]
                exact hlt
              · exact hstrict c hc hco
    · rw [if_neg hq] at h
      have hblt : offset < resolvedOffset f b := not_le.mp (by exact hq)
      obtain ⟨ha, hao, hall, haccb, hdisj⟩ := ih _ hacc a bch h
      refine ⟨ha, hao, ?_, haccb, ?_⟩
      · intro c hc hco
        rcases List.mem_cons.mp hc with rfl | hc
        · exact absurd hco (not_le.mpr hblt)
        · exact hall c hc hco
      · rcases hdisj with ⟨pre, post, hsplit, hpost⟩ | ⟨heq, hstrict⟩
        · exact Or.inl ⟨b :: pre, post, by simp [hsplit], hpost⟩
        · refine Or.inr ⟨heq, ?_⟩
          intro c hc hco
          rcases List.mem_cons.mp hc with rfl | hc
          · exact absurd hco (not_le.mpr hblt)
          · exact hstrict c hc hco

theorem mostRecentNavPoint_characterization (buttons : List NavButton) (currentPath : String)
    (offset : ℚ) (f : String → ℚ) :
    (mostRecentNavPoint buttons currentPath offset f = none ↔
      ∀ b ∈ matchingButtons buttons currentPath, offset < resolvedOffset f b) ∧
    (∀ bch, mostRecentNavPoint buttons currentPath offset f = some bch →
      bch.path = some currentPath ∧
      resolvedOffset f bch ≤ offset ∧
      (∀ c ∈ matchingButtons buttons currentPath,
        resolvedOffset f c ≤ offset → resolvedOffset f c ≤ resolvedOffset f bch) ∧
      ∃ pre post, matchingButtons buttons currentPath = pre ++ bch :: post ∧
        ∀ c ∈ post, resolvedOffset f c ≤ offset → resolvedOffset f c < resolvedOffset f bch) := by
  constructor
  · unfold mostRecentNavPoint
    by_cases he : (matchingButtons buttons currentPath).isEmpty
    · rw [List.isEmpty_iff] at he
      simp [he]
    · rw [if_neg he, Option.map_eq_none']
      rw [mostRecentScan_eq_none]
      simp
  · intro bch h
    unfold mostRecentNavPoint at h
    by_cases he : (matchingButtons buttons currentPath).isEmpty
    · simp [he] at h
    · rw [if_neg he] at h
      obtain ⟨⟨a, bch'⟩, hscan, hb⟩ := Option.map_eq_some'.mp h
      dsimp at hb
      subst hb
      obtain ⟨ha, hao, hall, _, hdisj⟩ :=
        mostRecentScan_eq_some offset f _ none (by simp) a _ hscan
      rcases hdisj with ⟨pre, post, hsplit, hpost⟩ | ⟨habs, _⟩
      · have hmem : bch' ∈ matchingButtons buttons currentPath := by
          rw [hsplit]
          simp
        have hpath : bch'.path = some currentPath := by
          have hf := List.of_mem_filter hmem
          simpa using hf
        rw [ha] at hao hall hpost
        exact ⟨hpath, hao, hall, pre, post, hsplit, hpost⟩
      · simp at habs

theorem char_toNat_lt (c : Char) : c.toNat < 1114112 := by
  have h := c.valid
  unfold UInt32.isValidChar Nat.isValidChar at h
  rcases h with h | h <;> simp [Char.toNat] <;> omega

theorem utf8EncodeChar_injective (c₁ c₂ : Char)
    (h : utf8EncodeChar c₁ = utf8EncodeChar c₂) : c₁ = c₂ := by
  have hn : c₁.toNat = c₂.toNat := by
    unfold utf8EncodeChar at h
    split_ifs at h <;> simp_all <;> omega
  have h2 := congrArg Char.ofNat hn
  rwa [Char.ofNat_toNat, Char.ofNat_toNat] at h2

theorem utf8EncodeChar_cons (c : Char) : ∃ b bs, utf8EncodeChar c = b :: bs := by
  unfold utf8EncodeChar; split_ifs <;> exact ⟨_, _, rfl⟩

theorem utf8Len_first (c : Char) (b : Nat) (bs : List Nat)
    (h : utf8EncodeChar c = b :: bs) :
    bs.length + 1 = (if b < 128 then 1 else if b < 224 then 2 else if b < 240 then 3 else 4) := by
  have hc := char_toNat_lt c
  unfold utf8EncodeChar at h
  split_ifs at h with h1 h2 h3 <;>
    (simp at h; obtain ⟨hb, hbs⟩ := h; subst hb; subst hbs; simp) <;>
    split_ifs <;> omega

theorem utf8EncodeChar_lt256 (c : Char) : ∀ b ∈ utf8EncodeChar c, b < 256 := by
  have hc := char_toNat_lt c
  unfold utf8EncodeChar
  split_ifs <;> intro b hb <;> simp at hb <;> omega

theorem utf8EncodeChar_append_inj (c₁ c₂ : Char) (r₁ r₂ : List Nat)
    (h : utf8EncodeChar c₁ ++ r₁ = utf8EncodeChar c₂ ++ r₂) : c₁ = c₂ ∧ r₁ = r₂ := by
  obtain ⟨b₁, bs₁, e₁⟩ := utf8EncodeChar_cons c₁
  obtain ⟨b₂, bs₂, e₂⟩ := utf8EncodeChar_cons c₂
  have hb : b₁ = b₂ := by
    rw [e₁, e₂] at h
    simpa using congrArg List.head? h
  have hlen : (utf8EncodeChar c₁).length = (utf8EncodeChar c₂).length := by
    have l₁ := utf8Len_first c₁ b₁ bs₁ e₁
    have l₂ := utf8Len_first c₂ b₂ bs₂ e₂
    rw [e₁, e₂]
    subst hb
    simp only [List.length_cons]
    omega
  obtain ⟨he, hr⟩ := List.append_inj h hlen
  exact ⟨utf8EncodeChar_injective _ _ he, hr⟩

theorem utf8Flat_injective : ∀ l₁ l₂ : List Char,
    l₁.flatMap utf8EncodeChar = l₂.flatMap utf8EncodeChar → l₁ = l₂ := by
  intro l₁
  induction l₁ with
  | nil =>
    intro l₂ h
    cases l₂ with
    | nil => rfl
    | cons c t =>
      obtain ⟨b, bs, e⟩ := utf8EncodeChar_cons c
      simp [e] at h
  | cons c t ih =>
    intro l₂ h
    cases l₂ with
    | nil =>
      obtain ⟨b, bs, e⟩ := utf8EncodeChar_cons c
      simp [e] at h
    | cons c' t' =>
      simp only [List.flatMap_cons] at h
      obtain ⟨hc, hr⟩ := utf8EncodeChar_append_inj c c' _ _ h
      exact hc ▸ congrArg _ (ih t' hr)

theorem hexDigitChar_inj :
    ∀ m n : Fin 16, hexDigitChar m.val = hexDigitChar n.val → m.val = n.val := by
  decide

theorem hexByte_inj (b₁ b₂ : Nat) (h₁ : b₁ < 256) (h₂ : b₂ < 256)
    (h : hexByte b₁ = hexByte b₂) : b₁ = b₂ := by
  simp [hexByte] at h
  obtain ⟨hd, he⟩ := h
  have d₁ : b₁ / 16 < 16 := by omega
  have d₂ : b₂ / 16 < 16 := by omega
  have m₁ : b₁ % 16 < 16 := by omega
  have m₂ : b₂ % 16 < 16 := by omega
  have q := hexDigitChar_inj ⟨b₁ / 16, d₁⟩ ⟨b₂ / 16, d₂⟩ hd
  have r := hexDigitChar_inj ⟨b₁ % 16, m₁⟩ ⟨b₂ % 16, m₂⟩ he
  simp at q r
  omega

theorem hexFlat_injective : ∀ l₁ l₂ : List Nat, (∀ b ∈ l₁, b < 256) → (∀ b ∈ l₂, b < 256) →
    l₁.flatMap hexByte = l₂.flatMap hexByte → l₁ = l₂ := by
  intro l₁
  induction l₁ with
  | nil =>
    intro l₂ _ _ h
    cases l₂ with
    | nil => rfl
    | cons b t => simp [hexByte] at h
  | cons b t ih =>
    intro l₂ hb₁ hb₂ h
    cases l₂ with
    | nil => simp [hexByte] at h
    | cons b' t' =>
      simp only [List.flatMap_cons, hexByte, List.cons_append, List.nil_append,
        List.cons.injEq] at h
      obtain ⟨e₁, e₂, e₃⟩ := h
      have hbb : b = b' := by
        refine hexByte_inj b b' (hb₁ b (by simp)) (hb₂ b' (by simp)) ?_
        simp [hexByte, e₁, e₂]
      refine hbb ▸ congrArg _ (ih t' ?_ ?_ e₃)
      · intro x hx; exact hb₁ x (by simp [hx])
      · intro x hx; exact hb₂ x (by simp [hx])

theorem customPropertyForFont_eq_iff (n₁ n₂ : String) :
    customPropertyForFont n₁ = customPropertyForFont n₂ ↔
      jsToLowerCase n₁ = jsToLowerCase n₂ := by
  constructor
  · intro h
    have hdata := congrArg String.data h
    simp only [customPropertyForFont] at hdata
    have hhex := List.append_cancel_left hdata
    have hb : ∀ s : String, ∀ b ∈ (jsToLowerCase s).data.flatMap utf8EncodeChar, b < 256 := by
      intro s b hb
      obtain ⟨c, _, hc⟩ := List.mem_flatMap.mp hb
      exact utf8EncodeChar_lt256 c b hc
    have hbytes := hexFlat_injective _ _ (hb n₁) (hb n₂) hhex
    have hchars := utf8Flat_injective _ _ hbytes
    exact String.ext hchars
  · intro h
    unfold customPropertyForFont
    rw [h]

theorem hexDigitChar_valid : ∀ n : Fin 16, isCssIdentChar (hexDigitChar n.val) := by decide

theorem customPropertyForFont_valid (name : String) :
    validCustomPropertyName (customPropertyForFont name) := by
  constructor
  · exact ⟨_, rfl, by simp⟩
  · intro c hc
    simp only [customPropertyForFont, List.mem_append] at hc
    rcases hc with hc | hc
    · have hpref : ∀ x ∈ "--og-font-".data, isCssIdentChar x := by decide
      exact hpref c hc
    · obtain ⟨b, hbmem, hcb⟩ := List.mem_flatMap.mp hc
      have hb : b < 256 := by
        obtain ⟨ch, _, hch⟩ := List.mem_flatMap.mp hbmem
        exact utf8EncodeChar_lt256 ch b hch
      simp only [hexByte, List.mem_cons, List.not_mem_nil, or_false] at hcb
      rcases hcb with rfl | rfl
      · exact hexDigitChar_valid ⟨b / 16, by omega⟩
      · exact hexDigitChar_valid ⟨b % 16, by omega⟩


/-! ## Claim theorems -/

/-- C4: every per-book style record committed by the styler, including
out-of-range inputs, yields CSS numeric values within fixed safe ranges:
base font size in 8 to 72 (input 4 clamps to 8), line-height scale in 0.2
to 6.0 (the stored knob clamped to 2 to 60, then divided by 10), and
inline margin in 0 to 45 percent in the current version or 0 to 500 in the
older version (input 1000 clamps to the maximum). -/
theorem filewise_clamp_ranges (styles : FilewiseStyles) :
    (8 ≤ (setFilewiseStyleCssValues styles).1 ∧ (setFilewiseStyleCssValues styles).1 ≤ 72) ∧
    (1/5 ≤ (setFilewiseStyleCssValues styles).2.1 ∧
      (setFilewiseStyleCssValues styles).2.1 ≤ 6) ∧
    (0 ≤ (setFilewiseStyleCssValues styles).2.2 ∧
      (setFilewiseStyleCssValues styles).2.2 ≤ 45) ∧
    (0 ≤ setCustomStylesheetMargin styles ∧ setCustomStylesheetMargin styles ≤ 500) ∧
    (setFilewiseStyleCssValues ⟨4, 10, 1000⟩).1 = 8 ∧
    (setFilewiseStyleCssValues ⟨4, 10, 1000⟩).2.2 = 45 ∧
    setCustomStylesheetMargin ⟨4, 10, 1000⟩ = 500 := by
  obtain ⟨hf1, hf2⟩ := clamp_mem styles.baseFontSize 8 72 (by norm_num)
  obtain ⟨hl1, hl2⟩ := clamp_mem styles.lineHeightScale 2 60 (by norm_num)
  obtain ⟨hm1, hm2⟩ := clamp_mem styles.inlineMargin 0 45 (by norm_num)
  obtain ⟨hn1, hn2⟩ := clamp_mem styles.inlineMargin 0 500 (by norm_num)
  simp only [setFilewiseStyleCssValues, setCustomStylesheetMargin]
  refine ⟨⟨hf1, hf2⟩, ⟨by linarith, by linarith⟩, ⟨hm1, hm2⟩, ⟨hn1, hn2⟩, ?_, ?_, ?_⟩ <;>
    norm_num [clamp]

/-- Witness for C4 at a concrete out-of-range record. -/
theorem filewise_clamp_ranges_witness :
    8 ≤ (setFilewiseStyleCssValues ⟨4, 10, 1000⟩).1 ∧
    (setFilewiseStyleCssValues ⟨4, 10, 1000⟩).1 ≤ 72 :=
  (filewise_clamp_ranges ⟨4, 10, 1000⟩).1

/-- C5: the fractional position formula is its own inverse: for any box and
content rectangle with nonzero content height,
`getCurrentPositionInverse(box, content, getCurrentPosition(box, content))`
recovers the original scroll offset, which equals the negated content top
exactly over the rationals. -/
theorem position_inverse_recovers (box content : DOMRect) (h : content.height ≠ 0) :
    getCurrentPositionInverse box content (getCurrentPosition box content) = -content.top := by
  unfold getCurrentPositionInverse getCurrentPosition getCurrentPositionPx
  field_simp
  ring

/-- Witness for C5 at box height 10, content top -30, content height 100. -/
theorem position_inverse_recovers_witness :
    (DOMRect.mk (-30) 100).height ≠ 0 ∧
    getCurrentPositionInverse ⟨0, 10⟩ ⟨-30, 100⟩
        (getCurrentPosition ⟨0, 10⟩ ⟨-30, 100⟩) = -(DOMRect.mk (-30) 100).top :=
  ⟨by norm_num, position_inverse_recovers ⟨0, 10⟩ ⟨-30, 100⟩ (by norm_num)⟩

/-- C6 counterexample: a saved record with key base-font-size present at
value 0 does not overwrite the control (default 16) — the merge loop tests
JS truthiness (`if (value)`), which skips 0 — contradicting the claim that
every key present in the saved record overwrites its control. -/
theorem commitFromSaved_zero_key_counterexample :
    (commitCustomStylesFromSaved ⟨some 0, none, none⟩ ⟨16, 12, 4⟩).1.baseFontSize = 16 ∧
    (commitCustomStylesFromSaved ⟨some 0, none, none⟩ ⟨16, 12, 4⟩).1.baseFontSize ≠ 0 := by
  constructor <;> norm_num [commitCustomStylesFromSaved, mergeSavedKey]

/-- C6 amended: `commitCustomStylesFromSaved` merges the saved record into
the input controls exactly for the keys present with a truthy (nonzero)
value — such a key overwrites its control, while an absent key or a key
saved as 0 leaves the control at its default — and then immediately commits
the full record derived from the current control values. -/
theorem commitFromSaved_merge_spec (saved : SavedFilewiseStyles) (inputs : FilewiseStyles) :
    ((commitCustomStylesFromSaved saved inputs).2 =
      (commitCustomStylesFromSaved saved inputs).1) ∧
    (∀ v : ℚ, v ≠ 0 →
      (saved.baseFontSize = some v →
        (commitCustomStylesFromSaved saved inputs).1.baseFontSize = v) ∧
      (saved.lineHeightScale = some v →
        (commitCustomStylesFromSaved saved inputs).1.lineHeightScale = v) ∧
      (saved.inlineMargin = some v →
        (commitCustomStylesFromSaved saved inputs).1.inlineMargin = v)) ∧
    ((saved.baseFontSize = none ∨ saved.baseFontSize = some 0) →
      (commitCustomStylesFromSaved saved inputs).1.baseFontSize = inputs.baseFontSize) ∧
    ((saved.lineHeightScale = none ∨ saved.lineHeightScale = some 0) →
      (commitCustomStylesFromSaved saved inputs).1.lineHeightScale =
        inputs.lineHeightScale) ∧
    ((saved.inlineMargin = none ∨ saved.inlineMargin = some 0) →
      (commitCustomStylesFromSaved saved inputs).1.inlineMargin = inputs.inlineMargin) := by
  refine ⟨rfl, ?_, ?_, ?_, ?_⟩
  · intro v hv
    refine ⟨?_, ?_, ?_⟩ <;> intro he <;>
      simp [commitCustomStylesFromSaved, mergeSavedKey, he, hv]
  · rintro (he | he) <;> simp [commitCustomStylesFromSaved, mergeSavedKey, he]
  · rintro (he | he) <;> simp [commitCustomStylesFromSaved, mergeSavedKey, he]
  · rintro (he | he) <;> simp [commitCustomStylesFromSaved, mergeSavedKey, he]

/-- Witness for C6 at a concrete saved record: a nonzero present key
overwrites, a key saved as 0 keeps the default, and the committed record
equals the merged controls. -/
theorem commitFromSaved_merge_spec_witness :
    (commitCustomStylesFromSaved ⟨some 20, none, some 0⟩ ⟨16, 12, 4⟩).2 =
      (commitCustomStylesFromSaved ⟨some 20, none, some 0⟩ ⟨16, 12, 4⟩).1 ∧
    (commitCustomStylesFromSaved ⟨some 20, none, some 0⟩ ⟨16, 12, 4⟩).1.baseFontSize = 20 ∧
    (commitCustomStylesFromSaved ⟨some 20, none, some 0⟩ ⟨16, 12, 4⟩).1.inlineMargin = 4 :=
  ⟨(commitFromSaved_merge_spec ⟨some 20, none, some 0⟩ ⟨16, 12, 4⟩).1,
   ((commitFromSaved_merge_spec ⟨some 20, none, some 0⟩ ⟨16, 12, 4⟩).2.1 20
      (by norm_num)).1 rfl,
   (commitFromSaved_merge_spec ⟨some 20, none, some 0⟩ ⟨16, 12, 4⟩).2.2.2.2 (Or.inr rfl)⟩

/-- C7 counterexample: the encoding lowercases the font name first, so the
distinct names "A" and "a" map to the same custom property — the encoding
is not injective on all font names as claimed. -/
theorem customPropertyForFont_case_collision :
    customPropertyForFont "A" = customPropertyForFont "a" ∧ ("A" : String) ≠ "a" := by
  constructor <;> decide

/-- C7 amended: the font-name encoding produces a valid CSS custom property
name for every font name (ASCII, spaces, CJK included), and it is injective
up to letter case: two font names map to the same property exactly when
their lowercased forms are equal (so names differing only in case, such as
"A" and "a", collide, and no other collisions exist). -/
theorem customPropertyForFont_injective_upto_case (n₁ n₂ : String) :
    validCustomPropertyName (customPropertyForFont n₁) ∧
    (customPropertyForFont n₁ = customPropertyForFont n₂ ↔
      jsToLowerCase n₁ = jsToLowerCase n₂) :=
  ⟨customPropertyForFont_valid n₁, customPropertyForFont_eq_iff n₁ n₂⟩

/-- Witness for C7 at concrete names: a name with spaces gets a valid
property, and two names with distinct lowercasings get distinct
properties. -/
theorem customPropertyForFont_injective_upto_case_witness :
    validCustomPropertyName (customPropertyForFont "Noto Sans") ∧
    customPropertyForFont "Noto Sans" ≠ customPropertyForFont "serif" :=
  ⟨(customPropertyForFont_injective_upto_case "Noto Sans" "serif").1,
   fun h => absurd
     ((customPropertyForFont_injective_upto_case "Noto Sans" "serif").2.mp h)
     (by decide)⟩

/-- C10: `BaseModal.close` on a modal whose dialog is not open returns true
as a successful no-op regardless of the locked flag; it returns false with
no state change exactly when the modal is open and locked; and it actually
closes the dialog exactly when the modal is open and unlocked. -/
theorem close_contract (m : BaseModal) :
    ((BaseModal.close m).1 = (!m.isOpen || !m.locked)) ∧
    ((BaseModal.close m).2.isOpen = (m.isOpen && m.locked)) ∧
    ((BaseModal.close m).2.locked = m.locked) ∧
    (m.isOpen = false → BaseModal.close m = (true, m)) ∧
    (m.isOpen = true → m.locked = true → BaseModal.close m = (false, m)) ∧
    (m.isOpen = true → m.locked = false →
      BaseModal.close m = (true, { m with isOpen := false })) := by
  rcases m with ⟨o, l⟩
  cases o <;> cases l <;> simp [BaseModal.close]

/-- Witness for C10 at the three relevant concrete modal states. -/
theorem close_contract_witness :
    (BaseModal.close ⟨true, false⟩).1 = true ∧
    (BaseModal.close ⟨true, true⟩).1 = false ∧
    (BaseModal.close ⟨false, true⟩).1 = true :=
  ⟨(close_contract ⟨true, false⟩).1.trans (by decide),
   (close_contract ⟨true, true⟩).1.trans (by decide),
   (close_contract ⟨false, true⟩).1.trans (by decide)⟩


/-- C1: `mostRecentNavPoint` restricts to buttons whose stored path equals
the current path, resolves each button to an offset (the anchored offset of
its location id when present and nonempty, else 0), and returns the button
with the greatest resolved offset that is at most the given scroll offset,
ties going to the later-scanned button (last-wins under the loop's `>=`
comparison); it returns null when no button matches the path or every
resolved offset exceeds the given offset. On candidates at offsets 0, 100
and 250: offset 150 selects the entry at 100, offset 50 selects the entry
at 0, and offset -10 yields null. -/
theorem mostRecentNavPoint_correct (buttons : List NavButton) (currentPath : String)
    (offset : ℚ) (f : String → ℚ) :
    (mostRecentNavPoint buttons currentPath offset f = none ↔
      ∀ b ∈ matchingButtons buttons currentPath, offset < resolvedOffset f b) ∧
    (∀ bch, mostRecentNavPoint buttons currentPath offset f = some bch →
      bch.path = some currentPath ∧
      resolvedOffset f bch ≤ offset ∧
      (∀ c ∈ matchingButtons buttons currentPath,
        resolvedOffset f c ≤ offset → resolvedOffset f c ≤ resolvedOffset f bch) ∧
      ∃ pre post, matchingButtons buttons currentPath = pre ++ bch :: post ∧
        ∀ c ∈ post, resolvedOffset f c ≤ offset →
          resolvedOffset f c < resolvedOffset f bch) ∧
    (mostRecentNavPoint
        [⟨some "/c1", none⟩, ⟨some "/c1", some "s1"⟩, ⟨some "/c1", some "s2"⟩] "/c1" 150
        (fun id => if id = "s1" then 100 else if id = "s2" then 250 else 0) =
      some ⟨some "/c1", some "s1"⟩) ∧
    (mostRecentNavPoint
        [⟨some "/c1", none⟩, ⟨some "/c1", some "s1"⟩, ⟨some "/c1", some "s2"⟩] "/c1" 50
        (fun id => if id = "s1" then 100 else if id = "s2" then 250 else 0) =
      some ⟨some "/c1", none⟩) ∧
    (mostRecentNavPoint
        [⟨some "/c1", none⟩, ⟨some "/c1", some "s1"⟩, ⟨some "/c1", some "s2"⟩] "/c1" (-10)
        (fun id => if id = "s1" then 100 else if id = "s2" then 250 else 0) =
      none) := by
  obtain ⟨h1, h2⟩ := mostRecentNavPoint_characterization buttons currentPath offset f
  exact ⟨h1, h2, by decide, by decide, by decide⟩

/-- Witness for C1: the null characterization instantiated at a concrete
one-button list. -/
theorem mostRecentNavPoint_correct_witness :
    mostRecentNavPoint [⟨some "/c1", none⟩] "/c1" 0 (fun _ => 0) = none ↔
      ∀ b ∈ matchingButtons [⟨some "/c1", none⟩] "/c1",
        (0 : ℚ) < resolvedOffset (fun _ => 0) b :=
  (mostRecentNavPoint_correct [⟨some "/c1", none⟩] "/c1" 0 (fun _ => 0)).1

/-- C2: under the registry invariant (at most one modal open, which holds in
every reachable state), `ModalCoordinator.show(modal)` returns false and
changes no modal's state when the target is already open or locked; when
the target is closed and unlocked, if some other registered modal is open
and locked the whole operation aborts with every modal's state unchanged
and no `showModal` call, and otherwise it closes every other modal, opens
the target, returns true and calls `showModal` exactly once; `showModal`
is called exactly once exactly when `show` returns true. -/
theorem show_contract (modals : List BaseModal) (target : Nat) (modal : BaseModal)
    (hm : modals[target]? = some modal) (hinv : atMostOneOpen modals) :
    ((modal.isOpen = true ∨ modal.locked = true) →
      ModalCoordinator.«show» modals target = ⟨false, modals, 0⟩) ∧
    (modal.isOpen = false → modal.locked = false →
      ((∃ j mj, j ≠ target ∧ modals[j]? = some mj ∧ mj.isOpen = true ∧ mj.locked = true) →
        ModalCoordinator.«show» modals target = ⟨false, modals, 0⟩) ∧
      ((∀ (j : Nat) (mj : BaseModal), j ≠ target → modals[j]? = some mj →
          ¬(mj.isOpen = true ∧ mj.locked = true)) →
        (ModalCoordinator.«show» modals target).returned = true ∧
        (ModalCoordinator.«show» modals target).showModalCalls = 1 ∧
        (ModalCoordinator.«show» modals target).modals[target]? =
          some { modal with isOpen := true } ∧
        (∀ (j : Nat) (mj : BaseModal), j ≠ target →
          (ModalCoordinator.«show» modals target).modals[j]? = some mj →
          mj.isOpen = false))) ∧
    ((ModalCoordinator.«show» modals target).returned = true ↔
      (ModalCoordinator.«show» modals target).showModalCalls = 1) := by
  refine ⟨?_, ?_, ?_⟩
  · intro h
    rw [show_unfold_eq modals target modal hm]
    rcases h with h | h
    · rw [if_pos h]
    · by_cases ho : modal.isOpen = true
      · rw [if_pos ho]
      · rw [if_neg ho, if_pos h]
  · intro ho hl
    have ho' : ¬ modal.isOpen = true := by simp [ho]
    have hl' : ¬ modal.locked = true := by simp [hl]
    constructor
    · rintro ⟨j, mj, hjt, hj, hjo, hjl⟩
      have hfail : (closeOthersFrom target 0 modals).1 = false :=
        cof_false_of target modals 0 j mj hj hjo hjl (by omega)
      have hunch : (closeOthersFrom target 0 modals).2 = modals :=
        cof_false_unchanged target modals 0 hinv hfail
      rw [show_unfold_eq modals target modal hm, if_neg ho', if_neg hl',
        if_neg (by simp [hfail]), hunch]
    · intro hno
      have hok : (closeOthersFrom target 0 modals).1 = true :=
        cof_true_of target modals 0 fun j mj hj hne => hno j mj (by omega) hj
      rw [show_unfold_eq modals target modal hm, if_neg ho', if_neg hl', if_pos hok]
      refine ⟨rfl, rfl, ?_, ?_⟩
      · refine List.getElem?_set_self ?_
        rw [cof_length]
        exact getElem?_lt hm
      · intro j mj hjt hj
        rw [List.getElem?_set_ne (by omega)] at hj
        exact cof_true_closed target modals 0 hok j mj hj (by omega)
  · rw [show_unfold_eq modals target modal hm]
    by_cases ho : modal.isOpen = true
    · rw [if_pos ho]
      simp
    · rw [if_neg ho]
      by_cases hl : modal.locked = true
      · rw [if_pos hl]
        simp
      · rw [if_neg hl]
        by_cases hok : (closeOthersFrom target 0 modals).1 = true
        · rw [if_pos hok]
          simp
        · rw [if_neg hok]
          simp

/-- Witness for C2: with modal 0 open-and-locked and modal 1 closed, showing
modal 1 aborts with both modals unchanged. -/
theorem show_contract_witness :
    ModalCoordinator.«show» [⟨true, true⟩, ⟨false, false⟩] 1 =
      ⟨false, [⟨true, true⟩, ⟨false, false⟩], 0⟩ :=
  ((show_contract [⟨true, true⟩, ⟨false, false⟩] 1 ⟨false, false⟩ (by decide)
      (by show countOpen _ ≤ 1; decide)).2.1 rfl rfl).1
    ⟨0, ⟨true, true⟩, by decide, by decide, rfl, rfl⟩

/-- C3: starting from all registered modals closed, after any sequence of
coordinator shows, closes, and lock-flag changes, at most one modal is open
at any time; a successful show leaves every other modal closed; and neither
a coordinator show nor a close ever closes a modal that is both open and
locked. -/
theorem modal_registry_invariant :
    (∀ (locks : List Bool) (events : List ModalEvent),
      atMostOneOpen (runModalEvents (initRegistry locks) events)) ∧
    (∀ (modals : List BaseModal) (target : Nat),
      (ModalCoordinator.«show» modals target).returned = true →
      ∀ (j : Nat) (mj : BaseModal), j ≠ target →
        (ModalCoordinator.«show» modals target).modals[j]? = some mj →
        mj.isOpen = false) ∧
    (∀ (modals : List BaseModal) (target i : Nat) (m : BaseModal),
      modals[i]? = some m → m.isOpen = true → m.locked = true →
      (applyModalEvent modals (ModalEvent.showEvt target))[i]? = some m ∧
      (applyModalEvent modals (ModalEvent.closeEvt target))[i]? = some m) := by
  refine ⟨?_, ?_, ?_⟩
  · intro locks events
    refine runEvents_countOpen events _ ?_
    rw [countOpen_init]
    omega
  · intro modals target h j mj hjt hj
    exact show_success_closes modals target h j mj hjt hj
  · intro modals target i m hi ho hl
    exact ⟨show_preserves_openLocked modals target i m hi ho hl,
      closeEvt_preserves_openLocked modals target i m hi ho hl⟩

/-- Witness for C3: a concrete event sequence on a two-modal registry. -/
theorem modal_registry_invariant_witness :
    atMostOneOpen (runModalEvents (initRegistry [true, false])
      [ModalEvent.setLockedEvt 0 false, ModalEvent.showEvt 0, ModalEvent.showEvt 1]) :=
  modal_registry_invariant.1 [true, false]
    [ModalEvent.setLockedEvt 0 false, ModalEvent.showEvt 0, ModalEvent.showEvt 1]

/-- C8: every `TaskRepeater.restart(f)` call cancels the previously
scheduled interval if one exists, invokes `f` once immediately, then
schedules `f` at the repeater's fixed interval (the trace of effects is
exactly optional-clear, call, schedule, and the interval is preserved);
consequently, starting from a fresh repeater on any well-formed scheduler,
after any number of restarts at most one interval handle issued to that
repeater is live, so no two generations of the same timer run
concurrently. -/
theorem taskRepeater_restart_spec (sched₀ : SchedulerState) (hwf : SchedulerState.WF sched₀) :
    (∀ (tr : TaskRepeater) (sched : SchedulerState),
      (tr.restart sched).2.2 =
        (match tr.handle with
         | some h => [TimerEvent.cleared h]
         | none => []) ++
        [TimerEvent.calledF, TimerEvent.scheduled sched.nextId tr.intervalMs] ∧
      (tr.restart sched).1.intervalMs = tr.intervalMs ∧
      (tr.restart sched).1.handle = some sched.nextId) ∧
    (∀ (intervalMs count : Nat),
      (liveIssued (runRestarts count ⟨intervalMs, none⟩ sched₀ []).2.1
        (runRestarts count ⟨intervalMs, none⟩ sched₀ []).2.2).length ≤ 1) := by
  constructor
  · intro tr sched
    exact restart_trace tr sched
  · intro intervalMs count
    have hinv : RInv ⟨intervalMs, none⟩ sched₀ [] := by
      refine ⟨by simp, hwf, by simp, ?_, by simp⟩
      intro h _ hi
      simp at hi
    exact liveIssued_le_one _ _ _ (runRestarts_inv count ⟨intervalMs, none⟩ sched₀ [] hinv)

/-- Witness for C8: three restarts on a fresh scheduler leave at most one
live handle. -/
theorem taskRepeater_restart_spec_witness :
    SchedulerState.WF ⟨0, []⟩ ∧
    (liveIssued (runRestarts 3 ⟨500, none⟩ ⟨0, []⟩ []).2.1
      (runRestarts 3 ⟨500, none⟩ ⟨0, []⟩ []).2.2).length ≤ 1 :=
  ⟨by intro h hm; simp at hm,
   (taskRepeater_restart_spec ⟨0, []⟩ (by intro h hm; simp at hm)).2 500 3⟩

/-- C9: `moveInSpine` at a spine boundary (adjacent index below 0 or at or
past the spine length) alerts the plain end-of-spine message and returns
without rendering, leaving the displayed page and reading position
unchanged; within bounds it renders the adjacent spine item (at fraction 0
going forward, 1 going backward). -/
theorem moveInSpine_boundary (spine : List String) (st : ReaderPageState) (forward : Bool) :
    (((st.positionIndex : Int) + (if forward then 1 else -1) < 0 ∨
        (spine.length : Int) ≤ (st.positionIndex : Int) + (if forward then 1 else -1)) →
      moveInSpineStep spine st forward = (st, MoveOutcome.alerted end_of_spine_message)) ∧
    (∀ adj : Nat, (st.positionIndex : Int) + (if forward then 1 else -1) = (adj : Int) →
      adj < spine.length →
      ∃ path, spine[adj]? = some path ∧
        moveInSpineStep spine st forward =
          (⟨path, adj⟩, MoveOutcome.rendered path (if forward then 0 else 1))) := by
  constructor
  · intro hb
    have he : moveInSpine spine st.positionIndex forward =
        MoveOutcome.alerted end_of_spine_message := by
      unfold moveInSpine
      rw [dif_pos hb]
    unfold moveInSpineStep
    rw [he]
  · intro adj hadj hlt
    have hnb : ¬((st.positionIndex : Int) + (if forward then 1 else -1) < 0 ∨
        (spine.length : Int) ≤ (st.positionIndex : Int) + (if forward then 1 else -1)) := by
      omega
    have hval : ((st.positionIndex : Int) + (if forward then 1 else -1)).toNat = adj := by
      omega
    have he : moveInSpine spine st.positionIndex forward =
        MoveOutcome.rendered (spine.get ⟨adj, hlt⟩) (if forward then 0 else 1) := by
      unfold moveInSpine
      rw [dif_neg hnb]
      simp only [hval]
    refine ⟨spine.get ⟨adj, hlt⟩, ?_, ?_⟩
    · rw [List.getElem?_eq_getElem hlt]
      rfl
    · unfold moveInSpineStep
      rw [he, hval]

/-- Witness for C9: moving forward from the last item of a two-item spine
alerts and leaves the state unchanged; moving forward from the first item
renders the second. -/
theorem moveInSpine_boundary_witness :
    moveInSpineStep ["/a", "/b"] ⟨"/b", 1⟩ true =
      (⟨"/b", 1⟩, MoveOutcome.alerted end_of_spine_message) ∧
    ∃ path, (["/a", "/b"] : List String)[1]? = some path ∧
      moveInSpineStep ["/a", "/b"] ⟨"/a", 0⟩ true =
        (⟨path, 1⟩, MoveOutcome.rendered path 0) :=
  ⟨(moveInSpine_boundary ["/a", "/b"] ⟨"/b", 1⟩ true).1 (by decide),
   (moveInSpine_boundary ["/a", "/b"] ⟨"/a", 0⟩ true).2 1 (by decide) (by decide)⟩

end Ogier
